import Mathlib

/-!
Shallow embedding of the `rust-cidr` big-endian bit-array primitives
(`src/bigendian.rs`, instantiated at `u8`) and of the `IpCidr` family
dispatch (`src/cidr/combined.rs`).

A `u8` slice is modelled as a `List Nat`; the side condition that every
element is an actual byte (`< 256`) is carried explicitly where needed.
Rust's wrapping arithmetic is modelled with `% 256`; `!x` on `u8` is
modelled as `255 ^^^ x`.
-/

namespace BigEndian

/-- Rust `elembits` for the `u8` instantiation. -/
def elembits : Nat := 8

/-- A valid byte slice: every element fits in a `u8`. -/
def Valid (s : List Nat) : Prop := ∀ b ∈ s, b < 256

instance : DecidablePred Valid := fun s => by
  unfold Valid; infer_instance

/-- Rust `mask(ndx)`: single bit set; bit 0 is the highest bit of the element. -/
def mask (ndx : Nat) : Nat := 2 ^ (8 - 1 - ndx % 8)

/-- Rust `u8::leading_zeros`, for arguments `< 256`. -/
def leading_zeros (x : Nat) : Nat :=
  if 128 ≤ x then 0
  else if 64 ≤ x then 1
  else if 32 ≤ x then 2
  else if 16 ≤ x then 3
  else if 8 ≤ x then 4
  else if 4 ≤ x then 5
  else if 2 ≤ x then 6
  else if 1 ≤ x then 7
  else 8

/-- Rust `get(slice, ndx)`: whether the bit at big-endian index `ndx` is set. -/
def get (s : List Nat) (ndx : Nat) : Bool :=
  decide (0 ≠ (s.getD (ndx / 8) 0) &&& mask ndx)

/-- Rust `flip(slice, ndx)`: xor element `ndx / 8` with `mask ndx`. -/
def flip (s : List Nat) (ndx : Nat) : List Nat :=
  s.set (ndx / 8) ((s.getD (ndx / 8) 0) ^^^ mask ndx)

/-- The carry loop of `inc`: add 1 from the rightmost element, propagating
the per-element `overflowing_add` carry leftwards and stopping at the first
element that does not overflow.  Returns the new slice and the overflow
flag of the last addition performed (`true` for the empty slice, matching
the initial value of `overflow` in the source). -/
def incBytes : List Nat → List Nat × Bool
  | [] => ([], true)
  | b :: rest =>
    let r := incBytes rest
    if r.2 then (((b + 1) % 256) :: r.1, decide (256 ≤ b + 1))
    else (b :: r.1, false)

/-- Rust `inc(slice, prefix)`: record the bit at `prefix - 1` (when `prefix > 0`),
run the carry loop, and if that bit flipped, flip it back and report `true`;
with `prefix == 0` report the raw carry flag. -/
def inc (s : List Nat) (pfx : Nat) : List Nat × Bool :=
  let prev_bit : Option Bool := if 0 < pfx then some (get s (pfx - 1)) else none
  let r := incBytes s
  match prev_bit with
  | some pb =>
    if pb ≠ get r.1 (pfx - 1) then (flip r.1 (pfx - 1), true) else (r.1, false)
  | none => r

/-- The element loop of `shared_prefix_len`: scan elements `i, i+1, ...`
for `fuel` steps; on the first non-zero xor return
`index * 8 + leading_zeros`. -/
def splLoop (a b : List Nat) (i : Nat) : Nat → Option Nat
  | 0 => none
  | fuel + 1 =>
    let diff := (a.getD i 0) ^^^ (b.getD i 0)
    if diff ≠ 0 then some (i * 8 + leading_zeros diff)
    else splLoop a b (i + 1) fuel

/-- Rust `shared_prefix_len(slice, other, max_len)`. -/
def shared_prefix_len (slice other : List Nat) (max_len : Nat) : Nat :=
  if max_len = 0 then 0
  else
    let slice_ndx := (max_len - 1) / 8
    match splLoop slice other 0 slice_ndx with
    | some r => r
    | none =>
      let diff := (slice.getD slice_ndx 0) ^^^ (other.getD slice_ndx 0)
      if diff ≠ 0 then min max_len (slice_ndx * 8 + leading_zeros diff)
      else max_len

/-- The element loop of `contains`: whole-element equality for `fuel`
elements starting at index `i`. -/
def containsLoop (a b : List Nat) (i : Nat) : Nat → Bool
  | 0 => true
  | fuel + 1 =>
    if a.getD i 0 ≠ b.getD i 0 then false else containsLoop a b (i + 1) fuel

/-- Rust `contains(slice, prefix, other)`. -/
def contains (slice : List Nat) (pfx : Nat) (other : List Nat) : Bool :=
  let slice_ndx := pfx / 8
  if containsLoop slice other 0 slice_ndx = false then false
  else if pfx % 8 = 0 then true
  else
    let m := 255 ^^^ (mask (pfx - 1) - 1)
    decide (0 = m &&& ((slice.getD slice_ndx 0) ^^^ (other.getD slice_ndx 0)))

/-- The fill loop shared by `zeroesfrom` and `onesfrom`: set every element
at position `≥ i` to `v`. -/
def fillFrom (s : List Nat) (i v : Nat) : List Nat :=
  match s, i with
  | [], _ => []
  | _ :: xs, 0 => v :: fillFrom xs 0 v
  | x :: xs, j + 1 => x :: fillFrom xs j v

/-- The check loop shared by `is_zeroesfrom` and `is_onesfrom`:
whether every element at position `≥ i` equals `v`. -/
def allEqFrom (s : List Nat) (i v : Nat) : Bool :=
  match s, i with
  | [], _ => true
  | x :: xs, 0 => decide (x = v) && allEqFrom xs 0 v
  | _ :: xs, j + 1 => allEqFrom xs j v

/-- Rust `zeroesfrom(slice, ndx)`: clear every bit at index `≥ ndx`. -/
def zeroesfrom (s : List Nat) (ndx : Nat) : List Nat :=
  let slice_ndx := ndx / 8
  if ndx % 8 = 0 then fillFrom s slice_ndx 0
  else if slice_ndx < s.length then
    let m := mask (ndx - 1) - 1
    fillFrom (s.set slice_ndx ((s.getD slice_ndx 0) &&& (255 ^^^ m))) (slice_ndx + 1) 0
  else s

/-- Rust `is_zeroesfrom(slice, ndx)`: whether `zeroesfrom` would change nothing. -/
def is_zeroesfrom (s : List Nat) (ndx : Nat) : Bool :=
  let slice_ndx := ndx / 8
  if ndx % 8 = 0 then allEqFrom s slice_ndx 0
  else if slice_ndx < s.length then
    decide ((s.getD slice_ndx 0) &&& (mask (ndx - 1) - 1) = 0)
      && allEqFrom s (slice_ndx + 1) 0
  else true

/-- Rust `onesfrom(slice, ndx)`: set every bit at index `≥ ndx`. -/
def onesfrom (s : List Nat) (ndx : Nat) : List Nat :=
  let slice_ndx := ndx / 8
  if ndx % 8 = 0 then fillFrom s slice_ndx 255
  else if slice_ndx < s.length then
    let m := mask (ndx - 1) - 1
    fillFrom (s.set slice_ndx ((s.getD slice_ndx 0) ||| m)) (slice_ndx + 1) 255
  else s

/-- Rust `is_onesfrom(slice, ndx)`: whether `onesfrom` would change nothing. -/
def is_onesfrom (s : List Nat) (ndx : Nat) : Bool :=
  let slice_ndx := ndx / 8
  if ndx % 8 = 0 then allEqFrom s slice_ndx 255
  else if slice_ndx < s.length then
    decide ((s.getD slice_ndx 0) ||| (255 ^^^ (mask (ndx - 1) - 1)) = 255)
      && allEqFrom s (slice_ndx + 1) 255
  else true

/-! ### Byte-level facts about `leading_zeros`, `mask` and bitwise operations -/

theorem lz_le_eight (d : Nat) : leading_zeros d ≤ 8 := by
  unfold leading_zeros
  repeat' split
  all_goals omega

set_option maxRecDepth 8192 in
theorem lz_bounds : ∀ d < 256, d = 0 ∨
    (2 ^ (7 - leading_zeros d) ≤ d ∧ d < 2 ^ (8 - leading_zeros d) ∧ leading_zeros d ≤ 7) := by
  decide

set_option maxRecDepth 8192 in
theorem highmask_eq : ∀ k < 9, 255 ^^^ (2 ^ k - 1) = 2 ^ k * (2 ^ (8 - k) - 1) := by
  decide

set_option maxRecDepth 8192 in
theorem and_mask_keep_iff : ∀ x < 256, ∀ k < 9,
    ((x &&& (255 ^^^ (2 ^ k - 1)) = x) ↔ (x &&& (2 ^ k - 1) = 0)) := by
  decide

set_option maxRecDepth 8192 in
theorem maskc_and_mask : ∀ k < 9, (255 ^^^ (2 ^ k - 1)) &&& (2 ^ k - 1) = 0 := by
  decide

theorem testBit_of_bounds {d L : Nat} (h1 : 2 ^ L ≤ d) (h2 : d < 2 ^ (L + 1)) :
    d.testBit L = true := by
  rw [Nat.testBit_to_div_mod]
  have hdiv : d / 2 ^ L = 1 := by
    apply Nat.div_eq_of_lt_le
    · simpa using h1
    · have : 2 ^ (L + 1) = 2 * 2 ^ L := by ring
      omega
  simp [hdiv]

theorem lz_testBit_false {d j : Nat} (hd : d < 256) (hj : j < 8)
    (hlt : j < leading_zeros d) : d.testBit (7 - j) = false := by
  rcases lz_bounds d hd with rfl | ⟨h1, h2, h3⟩
  · simp
  · apply Nat.testBit_lt_two_pow
    calc d < 2 ^ (8 - leading_zeros d) := h2
    _ ≤ 2 ^ (7 - j) := Nat.pow_le_pow_right (by omega) (by omega)

theorem lz_testBit_true {d : Nat} (hd : d < 256) (hne : d ≠ 0) :
    d.testBit (7 - leading_zeros d) = true := by
  rcases lz_bounds d hd with rfl | ⟨h1, h2, h3⟩
  · exact absurd rfl hne
  · refine testBit_of_bounds h1 ?_
    have he : 8 - leading_zeros d = (7 - leading_zeros d) + 1 := by omega
    rwa [he] at h2

theorem and_two_pow_ne_zero_iff (x j : Nat) : (0 ≠ x &&& 2 ^ j) ↔ x.testBit j = true := by
  constructor
  · intro h
    rcases Nat.ne_zero_implies_bit_true (fun h0 => h h0.symm) with ⟨i, hi⟩
    rw [Nat.testBit_and, Nat.testBit_two_pow] at hi
    rw [Bool.and_eq_true] at hi
    rcases hi with ⟨hx, hji⟩
    rwa [of_decide_eq_true hji]
  · intro h h0
    have hb := congrArg (fun t => t.testBit j) h0
    simp only [Nat.zero_testBit, Nat.testBit_and, Nat.testBit_two_pow_self, h] at hb
    exact Bool.false_ne_true hb

theorem get_eq_testBit_byte (s : List Nat) (i : Nat) :
    get s i = (s.getD (i / 8) 0).testBit (7 - i % 8) := by
  have h := and_two_pow_ne_zero_iff (s.getD (i / 8) 0) (7 - i % 8)
  have e : (8 : Nat) - 1 - i % 8 = 7 - i % 8 := rfl
  unfold get mask
  rw [e]
  cases hb : (s.getD (i / 8) 0).testBit (7 - i % 8)
  · rw [hb] at h
    simp only [Bool.false_eq_true, iff_false] at h
    simpa using h
  · rw [hb] at h
    simp only [iff_true] at h
    simpa using h

/-- Every element read out of a valid slice is a byte (the default is, too). -/
theorem getD_lt_256 {s : List Nat} (hs : Valid s) (p : Nat) : s.getD p 0 < 256 := by
  rcases Nat.lt_or_ge p s.length with hp | hp
  · rw [List.getD_eq_getElem _ _ hp]
    exact hs _ (List.getElem_mem hp)
  · rw [List.getD_eq_default _ _ hp]
    omega

/-- A byte is determined by its eight big-endian bits. -/
theorem byte_eq_iff_bits {x y : Nat} (hx : x < 256) (hy : y < 256) :
    x = y ↔ ∀ j < 8, x.testBit (7 - j) = y.testBit (7 - j) := by
  constructor
  · intro h j _
    rw [h]
  · intro h
    apply Nat.eq_of_testBit_eq
    intro i
    rcases Nat.lt_or_ge i 8 with hi | hi
    · have := h (7 - i) (by omega)
      rwa [show 7 - (7 - i) = i by omega] at this
    · rw [Nat.testBit_lt_two_pow, Nat.testBit_lt_two_pow]
      · calc y < 256 := hy
        _ = 2 ^ 8 := rfl
        _ ≤ 2 ^ i := Nat.pow_le_pow_right (by omega) hi
      · calc x < 256 := hx
        _ = 2 ^ 8 := rfl
        _ ≤ 2 ^ i := Nat.pow_le_pow_right (by omega) hi

/-! ### The big-endian integer value of a byte slice -/

/-- The slice read as a big unsigned integer (first byte most significant). -/
def beVal : List Nat → Nat
  | [] => 0
  | b :: rest => b * 2 ^ (8 * rest.length) + beVal rest

theorem beVal_lt {s : List Nat} (hs : Valid s) : beVal s < 2 ^ (8 * s.length) := by
  induction s with
  | nil => simp [beVal]
  | cons b rest ih =>
    have hb : b < 256 := hs b (List.mem_cons_self ..)
    have hr : beVal rest < 2 ^ (8 * rest.length) :=
      ih (fun x hx => hs x (List.mem_cons_of_mem _ hx))
    have he : 2 ^ (8 * (b :: rest).length) = 256 * 2 ^ (8 * rest.length) := by
      rw [List.length_cons]
      rw [show 8 * (rest.length + 1) = 8 + 8 * rest.length by ring]
      rw [pow_add]
      norm_num
    rw [he]
    simp only [beVal]
    nlinarith [Nat.pos_pow_of_pos (8 * rest.length) (show 0 < 2 by omega)]

theorem beVal_testBit_getD {s : List Nat} (hs : Valid s) :
    ∀ q < s.length, ∀ j < 8,
      (beVal s).testBit (8 * (s.length - 1 - q) + j) = (s.getD q 0).testBit j := by
  induction s with
  | nil =>
    intro q hq
    simp at hq
  | cons b rest ih =>
    intro q hq j hj
    have hr : beVal rest < 2 ^ (8 * rest.length) :=
      beVal_lt (fun x hx => hs x (List.mem_cons_of_mem _ hx))
    have hcomm : beVal (b :: rest) = 2 ^ (8 * rest.length) * b + beVal rest := by
      simp only [beVal]
      ring
    cases q with
    | zero =>
      have hlen : (b :: rest).length - 1 - 0 = rest.length := by simp
      rw [hlen, hcomm, Nat.testBit_mul_pow_two_add _ hr]
      have : ¬ (8 * rest.length + j < 8 * rest.length) := by omega
      simp only [this, if_false]
      rw [show 8 * rest.length + j - 8 * rest.length = j by omega]
      rfl
    | succ q' =>
      have hq' : q' < rest.length := by
        simp only [List.length_cons] at hq
        omega
      have hlen : (b :: rest).length - 1 - (q' + 1) = rest.length - 1 - q' := by
        simp only [List.length_cons]
        omega
      rw [hlen, hcomm, Nat.testBit_mul_pow_two_add _ hr]
      have hlt : 8 * (rest.length - 1 - q') + j < 8 * rest.length := by omega
      simp only [hlt, if_true]
      rw [ih (fun x hx => hs x (List.mem_cons_of_mem _ hx)) q' hq' j hj]
      rfl

theorem get_eq_testBit_beVal {s : List Nat} (hs : Valid s) {i : Nat}
    (hi : i < 8 * s.length) :
    get s i = (beVal s).testBit (8 * s.length - 1 - i) := by
  have hq : i / 8 < s.length := by omega
  have ht : i % 8 < 8 := Nat.mod_lt _ (by omega)
  have hidx : 8 * s.length - 1 - i = 8 * (s.length - 1 - i / 8) + (7 - i % 8) := by
    have := Nat.div_add_mod i 8
    omega
  rw [get_eq_testBit_byte, hidx,
    beVal_testBit_getD hs (i / 8) hq (7 - i % 8) (by omega)]

theorem beVal_inj {s t : List Nat} (hs : Valid s) (ht : Valid t)
    (hlen : s.length = t.length) (hval : beVal s = beVal t) : s = t := by
  induction s generalizing t with
  | nil =>
    cases t with
    | nil => rfl
    | cons y ys => simp at hlen
  | cons x xs ih =>
    cases t with
    | nil => simp at hlen
    | cons y ys =>
      have hlen' : xs.length = ys.length := by
        simp only [List.length_cons] at hlen
        omega
      have hxs : Valid xs := fun z hz => hs z (List.mem_cons_of_mem _ hz)
      have hys : Valid ys := fun z hz => ht z (List.mem_cons_of_mem _ hz)
      have hx : x < 256 := hs x (List.mem_cons_self ..)
      have hy : y < 256 := ht y (List.mem_cons_self ..)
      have hbx : beVal xs < 2 ^ (8 * xs.length) := beVal_lt hxs
      have hby : beVal ys < 2 ^ (8 * ys.length) := beVal_lt hys
      simp only [beVal, hlen'] at hval
      have hK : 0 < 2 ^ (8 * ys.length) := Nat.pos_pow_of_pos _ (by omega)
      have hxy : x = y := by
        rw [hlen'] at hbx
        rcases Nat.lt_trichotomy x y with h | h | h
        · exfalso
          have hle : x + 1 ≤ y := h
          nlinarith
        · exact h
        · exfalso
          have hle : y + 1 ≤ x := h
          nlinarith
      subst hxy
      have : beVal xs = beVal ys := by omega
      rw [ih hxs hys hlen' this]

theorem beVal_replicate_zero (n : Nat) : beVal (List.replicate n 0) = 0 := by
  induction n with
  | zero => rfl
  | succ m ih => simp [List.replicate_succ, beVal, ih]

theorem beVal_replicate_ones (n : Nat) :
    beVal (List.replicate n 255) = 2 ^ (8 * n) - 1 := by
  induction n with
  | zero => rfl
  | succ m ih =>
    simp only [List.replicate_succ, beVal, List.length_replicate, ih]
    have hK : 0 < 2 ^ (8 * m) := Nat.pos_pow_of_pos _ (by omega)
    have he : 2 ^ (8 * (m + 1)) = 256 * 2 ^ (8 * m) := by
      rw [show 8 * (m + 1) = 8 + 8 * m by ring, pow_add]
      norm_num
    omega

theorem valid_replicate (n v : Nat) (hv : v < 256) : Valid (List.replicate n v) := by
  intro b hb
  rw [List.eq_of_mem_replicate hb]
  exact hv

theorem beVal_eq_ones_iff {s : List Nat} (hs : Valid s) :
    beVal s = 2 ^ (8 * s.length) - 1 ↔ s = List.replicate s.length 255 := by
  constructor
  · intro h
    apply beVal_inj hs (valid_replicate _ _ (by omega))
    · simp
    · rw [h, beVal_replicate_ones]
  · intro h
    conv_lhs => rw [h]
    rw [beVal_replicate_ones]

/-! ### Correctness of the carry loop -/

theorem incBytes_spec {s : List Nat} (hs : Valid s) :
    (incBytes s).1.length = s.length ∧ Valid (incBytes s).1 ∧
    beVal (incBytes s).1 = (beVal s + 1) % 2 ^ (8 * s.length) ∧
    ((incBytes s).2 = true ↔ beVal s = 2 ^ (8 * s.length) - 1) := by
  induction s with
  | nil =>
    refine ⟨rfl, ?_, ?_, ?_⟩
    · intro b hb
      cases hb
    · simp [incBytes, beVal]
    · simp [incBytes, beVal]
  | cons b rest ih =>
    have hb : b < 256 := hs b (List.mem_cons_self ..)
    have hrest : Valid rest := fun x hx => hs x (List.mem_cons_of_mem _ hx)
    obtain ⟨ihlen, ihvalid, ihval, ihflag⟩ := ih hrest
    have hbr : beVal rest < 2 ^ (8 * rest.length) := beVal_lt hrest
    have hK : 0 < 2 ^ (8 * rest.length) := Nat.pos_pow_of_pos _ (by omega)
    have hKe : 2 ^ (8 * (b :: rest).length) = 256 * 2 ^ (8 * rest.length) := by
      rw [List.length_cons, show 8 * (rest.length + 1) = 8 + 8 * rest.length by ring,
        pow_add]
      norm_num
    have hbe : beVal (b :: rest) = b * 2 ^ (8 * rest.length) + beVal rest := rfl
    have hmul : (b + 1) * 2 ^ (8 * rest.length)
        = b * 2 ^ (8 * rest.length) + 2 ^ (8 * rest.length) := by ring
    have hmul255 : b * 2 ^ (8 * rest.length) ≤ 255 * 2 ^ (8 * rest.length) :=
      Nat.mul_le_mul_right _ (by omega)
    cases hflag : (incBytes rest).2 with
    | true =>
      have hones : beVal rest = 2 ^ (8 * rest.length) - 1 := ihflag.mp hflag
      have hzero : beVal (incBytes rest).1 = 0 := by
        rw [ihval, hones, Nat.sub_add_cancel hK, Nat.mod_self]
      have hstep : incBytes (b :: rest) =
          (((b + 1) % 256) :: (incBytes rest).1, decide (256 ≤ b + 1)) := by
        simp [incBytes, hflag]
      refine ⟨?_, ?_, ?_, ?_⟩
      · rw [hstep]
        simp [ihlen]
      · rw [hstep]
        intro x hx
        rcases List.mem_cons.mp hx with rfl | hx
        · exact Nat.mod_lt _ (by omega)
        · exact ihvalid x hx
      · rw [hstep]
        show beVal (((b + 1) % 256) :: (incBytes rest).1)
          = (beVal (b :: rest) + 1) % 2 ^ (8 * (b :: rest).length)
        have hv : beVal (b :: rest) + 1 = (b + 1) * 2 ^ (8 * rest.length) := by
          rw [hbe, hones, hmul]
          omega
        rw [hv, hKe, Nat.mul_mod_mul_right]
        show ((b + 1) % 256) * 2 ^ (8 * (incBytes rest).1.length)
            + beVal (incBytes rest).1 = (b + 1) % 256 * 2 ^ (8 * rest.length)
        rw [ihlen, hzero]
        omega
      · rw [hstep]
        show (decide (256 ≤ b + 1) = true)
          ↔ beVal (b :: rest) = 2 ^ (8 * (b :: rest).length) - 1
        rw [decide_eq_true_eq, hbe, hKe, hones]
        constructor
        · intro h
          have hb255 : b = 255 := by omega
          rw [hb255]
          omega
        · intro h
          by_contra hcon
          have hble : b ≤ 254 := by omega
          have : b * 2 ^ (8 * rest.length) ≤ 254 * 2 ^ (8 * rest.length) :=
            Nat.mul_le_mul_right _ hble
          omega
    | false =>
      have hnotones : beVal rest ≠ 2 ^ (8 * rest.length) - 1 := by
        intro h
        rw [ihflag.mpr h] at hflag
        simp at hflag
      have hlt' : beVal rest + 1 < 2 ^ (8 * rest.length) := by omega
      have hval' : beVal (incBytes rest).1 = beVal rest + 1 := by
        rw [ihval, Nat.mod_eq_of_lt hlt']
      have hstep : incBytes (b :: rest) = (b :: (incBytes rest).1, false) := by
        simp [incBytes, hflag]
      refine ⟨?_, ?_, ?_, ?_⟩
      · rw [hstep]
        simp [ihlen]
      · rw [hstep]
        intro x hx
        rcases List.mem_cons.mp hx with rfl | hx
        · exact hb
        · exact ihvalid x hx
      · rw [hstep]
        show beVal (b :: (incBytes rest).1)
          = (beVal (b :: rest) + 1) % 2 ^ (8 * (b :: rest).length)
        have hsmall : beVal (b :: rest) + 1 < 2 ^ (8 * (b :: rest).length) := by
          rw [hbe, hKe]
          omega
        rw [Nat.mod_eq_of_lt hsmall]
        show b * 2 ^ (8 * (incBytes rest).1.length) + beVal (incBytes rest).1
          = beVal (b :: rest) + 1
        rw [ihlen, hval', hbe]
        omega
      · rw [hstep]
        show (false = true) ↔ beVal (b :: rest) = 2 ^ (8 * (b :: rest).length) - 1
        rw [hbe, hKe]
        constructor
        · intro h
          simp at h
        · intro h
          omega

theorem inc_zero (s : List Nat) : inc s 0 = incBytes s := by
  simp [inc]

theorem inc_pos {s : List Nat} {pfx : Nat} (h : 0 < pfx) :
    inc s pfx = if get s (pfx - 1) ≠ get (incBytes s).1 (pfx - 1)
      then (flip (incBytes s).1 (pfx - 1), true) else ((incBytes s).1, false) := by
  simp [inc, h]

/-! ### Bit structure of `+ 1` -/

theorem succ_div_pow_of_not_ones {v k : Nat} (h : v % 2 ^ k ≠ 2 ^ k - 1) :
    (v + 1) / 2 ^ k = v / 2 ^ k := by
  have hK : 0 < 2 ^ k := Nat.pos_pow_of_pos _ (by omega)
  have hm : v % 2 ^ k < 2 ^ k := Nat.mod_lt _ hK
  have hd := Nat.div_add_mod v (2 ^ k)
  have h1 : v + 1 = 2 ^ k * (v / 2 ^ k) + (v % 2 ^ k + 1) := by omega
  rw [h1, Nat.mul_add_div hK]
  have h0 : (v % 2 ^ k + 1) / 2 ^ k = 0 := Nat.div_eq_of_lt (by omega)
  omega

theorem succ_div_pow_of_ones {v k : Nat} (h : v % 2 ^ k = 2 ^ k - 1) :
    (v + 1) / 2 ^ k = v / 2 ^ k + 1 := by
  have hK : 0 < 2 ^ k := Nat.pos_pow_of_pos _ (by omega)
  have hd := Nat.div_add_mod v (2 ^ k)
  have h1 : v + 1 = 2 ^ k * (v / 2 ^ k) + 2 ^ k := by omega
  rw [h1, Nat.mul_add_div hK, Nat.div_self hK]

theorem testBit_succ_flip_iff (v k : Nat) :
    ((v + 1).testBit k ≠ v.testBit k) ↔ v % 2 ^ k = 2 ^ k - 1 := by
  constructor
  · intro h
    by_contra hne
    rw [Nat.testBit_to_div_mod, Nat.testBit_to_div_mod,
      succ_div_pow_of_not_ones hne] at h
    exact h rfl
  · intro h
    rw [Nat.testBit_to_div_mod, Nat.testBit_to_div_mod, succ_div_pow_of_ones h]
    rcases Nat.mod_two_eq_zero_or_one (v / 2 ^ k) with h0 | h0
    · have h1 : (v / 2 ^ k + 1) % 2 = 1 := by omega
      simp [h0, h1]
    · have h1 : (v / 2 ^ k + 1) % 2 = 0 := by omega
      simp [h0, h1]

theorem testBit_succ_high_eq {v k : Nat} (h : v % 2 ^ k ≠ 2 ^ k - 1) {m : Nat}
    (hm : k ≤ m) : (v + 1).testBit m = v.testBit m := by
  rw [Nat.testBit_to_div_mod, Nat.testBit_to_div_mod]
  have he : (2 : Nat) ^ m = 2 ^ k * 2 ^ (m - k) := by
    rw [← pow_add]
    congr 1
    omega
  rw [he, ← Nat.div_div_eq_div_mul, ← Nat.div_div_eq_div_mul,
    succ_div_pow_of_not_ones h]

theorem lowbits_ones_iff (v k : Nat) :
    (∀ m, m < k → v.testBit m = true) ↔ v % 2 ^ k = 2 ^ k - 1 := by
  constructor
  · intro h
    apply Nat.eq_of_testBit_eq
    intro i
    rw [Nat.testBit_mod_two_pow, Nat.testBit_two_pow_sub_one]
    by_cases hi : i < k
    · simp [hi, h i hi]
    · simp [hi]
  · intro h m hm
    have h2 : (v % 2 ^ k).testBit m = true := by
      rw [h, Nat.testBit_two_pow_sub_one]
      simp [hm]
    rwa [Nat.testBit_mod_two_pow, decide_eq_true hm, Bool.true_and] at h2

/-- C2: for a valid byte slice and `1 ≤ prefix ≤ 8 * len`, `inc(slice, prefix)`
returns `true` iff every bit at an index in `[prefix, 8 * len)` was `1` before
the call (vacuously so for `prefix = 8 * len`, where `inc` always reports
`true`). -/
theorem inc_overflow_iff_host_all_ones {s : List Nat} (hs : Valid s) {pfx : Nat}
    (h1 : 1 ≤ pfx) (h2 : pfx ≤ 8 * s.length) :
    (inc s pfx).2 = true ↔ ∀ i, pfx ≤ i → i < 8 * s.length → get s i = true := by
  obtain ⟨hlen, hval, hbe, _⟩ := incBytes_spec hs
  have hpos : 0 < pfx := h1
  have hsplit : (inc s pfx).2 = true ↔
      (get s (pfx - 1) ≠ get (incBytes s).1 (pfx - 1)) := by
    rw [inc_pos hpos]
    split
    · simp [*]
    · simp [*]
  have hidx : 8 * s.length - 1 - (pfx - 1) = 8 * s.length - pfx := by omega
  have hget1 : get s (pfx - 1) = (beVal s).testBit (8 * s.length - pfx) := by
    rw [get_eq_testBit_beVal hs (by omega), hidx]
  have hget2 : get (incBytes s).1 (pfx - 1)
      = (beVal s + 1).testBit (8 * s.length - pfx) := by
    rw [get_eq_testBit_beVal hval (by omega), hbe, hlen, hidx,
      Nat.testBit_mod_two_pow]
    have hk : 8 * s.length - pfx < 8 * s.length := by omega
    simp [hk]
  have hkey : (get s (pfx - 1) ≠ get (incBytes s).1 (pfx - 1)) ↔
      beVal s % 2 ^ (8 * s.length - pfx) = 2 ^ (8 * s.length - pfx) - 1 := by
    rw [hget1, hget2, ← testBit_succ_flip_iff (beVal s) (8 * s.length - pfx)]
    exact ne_comm
  have hhost : (∀ i, pfx ≤ i → i < 8 * s.length → get s i = true) ↔
      (∀ m, m < 8 * s.length - pfx → (beVal s).testBit m = true) := by
    constructor
    · intro h m hm
      have hi : pfx ≤ 8 * s.length - 1 - m ∧ 8 * s.length - 1 - m < 8 * s.length := by
        omega
      have := h _ hi.1 hi.2
      rwa [get_eq_testBit_beVal hs hi.2,
        show 8 * s.length - 1 - (8 * s.length - 1 - m) = m by omega] at this
    · intro h i hge hlt
      rw [get_eq_testBit_beVal hs hlt]
      exact h _ (by omega)
  rw [hsplit, hkey, hhost, lowbits_ones_iff]

/-- Witness for `inc_overflow_iff_host_all_ones` at `slice = [255]`,
`prefix = 4`. -/
theorem inc_overflow_iff_host_all_ones_witness :
    (inc [255] 4).2 = true ↔
      ∀ i, 4 ≤ i → i < 8 * [255].length → get [255] i = true :=
  inc_overflow_iff_host_all_ones (by decide) (by decide) (by decide)

theorem getD_set_self (s : List Nat) (p w : Nat) (hp : p < s.length) :
    (s.set p w).getD p 0 = w := by
  rw [List.getD_eq_getElem?_getD, List.getElem?_set_self hp]
  rfl

theorem getD_set_ne (s : List Nat) {p q : Nat} (w : Nat) (h : p ≠ q) :
    (s.set p w).getD q 0 = s.getD q 0 := by
  rw [List.getD_eq_getElem?_getD, List.getElem?_set_ne h,
    ← List.getD_eq_getElem?_getD]

theorem get_flip_self {s : List Nat} {i : Nat} (hi : i / 8 < s.length) :
    get (flip s i) i = ! get s i := by
  unfold flip
  rw [get_eq_testBit_byte, get_eq_testBit_byte, getD_set_self _ _ _ hi]
  rw [Nat.testBit_xor]
  have he : mask i = 2 ^ (7 - i % 8) := rfl
  rw [he, Nat.testBit_two_pow_self]
  cases (s.getD (i / 8) 0).testBit (7 - i % 8) <;> rfl

theorem get_incBytes_testBit {s : List Nat} (hs : Valid s) {i : Nat}
    (hi : i < 8 * s.length) :
    get (incBytes s).1 i = (beVal s + 1).testBit (8 * s.length - 1 - i) := by
  obtain ⟨hlen, hval, hbe, _⟩ := incBytes_spec hs
  rw [get_eq_testBit_beVal hval (by rw [hlen]; exact hi), hlen, hbe,
    Nat.testBit_mod_two_pow]
  have hk : 8 * s.length - 1 - i < 8 * s.length := by omega
  simp [hk]

/-- C1 is false as stated: `inc([255], 8)` reports `true` and changes bit 0,
which lies strictly below the prefix length 8. -/
theorem inc_prefix_bits_cex :
    ([255] ≠ ([] : List Nat)) ∧ 8 ≤ 8 * [255].length ∧
    (inc [255] 8).2 = true ∧ get ((inc [255] 8).1) 0 ≠ get [255] 0 := by decide

/-- C1 (amended): when `inc(slice, prefix)` reports `false`, every bit at an
index strictly below `prefix` keeps its value; and the bit at `prefix - 1`
keeps its value in every case (when the increment flips it, `inc` flips it
back).  When `inc` reports `true`, bits at indices below `prefix - 1` may
change. -/
theorem inc_prefix_frame {s : List Nat} (hs : Valid s) {pfx : Nat}
    (hp : pfx ≤ 8 * s.length) :
    ((inc s pfx).2 = false → ∀ i < pfx, get ((inc s pfx).1) i = get s i) ∧
    (0 < pfx → get ((inc s pfx).1) (pfx - 1) = get s (pfx - 1)) := by
  obtain ⟨hlen, hval, hbe, _⟩ := incBytes_spec hs
  constructor
  · intro hfalse i hi
    have hpos : 0 < pfx := by omega
    rw [inc_pos hpos] at hfalse
    rw [inc_pos hpos]
    by_cases hc : get s (pfx - 1) ≠ get (incBytes s).1 (pfx - 1)
    · rw [if_pos hc] at hfalse
      simp at hfalse
    · rw [if_neg hc]
      push_neg at hc
      show get (incBytes s).1 i = get s i
      have hc' : (beVal s + 1).testBit (8 * s.length - pfx)
          = (beVal s).testBit (8 * s.length - pfx) := by
        have e1 := get_eq_testBit_beVal hs (show pfx - 1 < 8 * s.length by omega)
        have e2 := get_incBytes_testBit hs (show pfx - 1 < 8 * s.length by omega)
        rw [e1, e2,
          show 8 * s.length - 1 - (pfx - 1) = 8 * s.length - pfx by omega] at hc
        exact hc.symm
      have hnotones : beVal s % 2 ^ (8 * s.length - pfx)
          ≠ 2 ^ (8 * s.length - pfx) - 1 := by
        intro hco
        exact (testBit_succ_flip_iff (beVal s) (8 * s.length - pfx)).mpr hco hc'
      rw [get_incBytes_testBit hs (by omega), get_eq_testBit_beVal hs (by omega)]
      exact testBit_succ_high_eq hnotones (by omega)
  · intro hpos
    rw [inc_pos hpos]
    by_cases hc : get s (pfx - 1) ≠ get (incBytes s).1 (pfx - 1)
    · rw [if_pos hc]
      show get (flip (incBytes s).1 (pfx - 1)) (pfx - 1) = get s (pfx - 1)
      have hdiv : (pfx - 1) / 8 < (incBytes s).1.length := by
        rw [hlen]
        omega
      rw [get_flip_self hdiv]
      cases hg : get (incBytes s).1 (pfx - 1)
      · cases hgs : get s (pfx - 1)
        · rw [hg, hgs] at hc
          exact absurd rfl hc
        · rfl
      · cases hgs : get s (pfx - 1)
        · rfl
        · rw [hg, hgs] at hc
          exact absurd rfl hc
    · rw [if_neg hc]
      push_neg at hc
      exact hc.symm

/-- Witness for `inc_prefix_frame` at `slice = [10]`, `prefix = 4`. -/
theorem inc_prefix_frame_witness :
    ((inc [10] 4).2 = false → ∀ i < 4, get ((inc [10] 4).1) i = get [10] i) ∧
    (0 < 4 → get ((inc [10] 4).1) 3 = get [10] 3) :=
  inc_prefix_frame (by decide) (by decide)

/-! ### Iterating `inc` with `prefix = 0` -/

/-- One iteration step: the slice left behind by `inc(slice, 0)`. -/
def incStep (s : List Nat) : List Nat := (inc s 0).1

theorem incStep_eq (s : List Nat) : incStep s = (incBytes s).1 := by
  rw [incStep, inc_zero]

theorem iterate_incStep_spec {s : List Nat} (hs : Valid s) (k : Nat) :
    (incStep^[k] s).length = s.length ∧ Valid (incStep^[k] s) ∧
    beVal (incStep^[k] s) = (beVal s + k) % 2 ^ (8 * s.length) := by
  induction k with
  | zero =>
    refine ⟨rfl, hs, ?_⟩
    simp [Nat.mod_eq_of_lt (beVal_lt hs)]
  | succ n ih =>
    obtain ⟨ihlen, ihvalid, ihval⟩ := ih
    obtain ⟨hlen, hval, hbe, _⟩ := incBytes_spec ihvalid
    rw [Function.iterate_succ_apply']
    refine ⟨?_, ?_, ?_⟩
    · rw [incStep_eq, hlen, ihlen]
    · rw [incStep_eq]
      exact hval
    · rw [incStep_eq, hbe, ihval, ihlen, Nat.mod_add_mod,
        show beVal s + n + 1 = beVal s + (n + 1) by ring]

/-- C7: iterating `inc` with `prefix = 0` exactly `2 ^ (8 * len)` times returns
a non-empty slice to its original value; exactly one call in the cycle reports
`true`, and that call is applied to the all-ones slice and produces the
all-zero slice. -/
theorem inc_cycle {s : List Nat} (_hne : s ≠ []) (hs : Valid s) :
    incStep^[2 ^ (8 * s.length)] s = s ∧
    (∃! k, k < 2 ^ (8 * s.length) ∧ (inc (incStep^[k] s) 0).2 = true) ∧
    (∀ k, k < 2 ^ (8 * s.length) → (inc (incStep^[k] s) 0).2 = true →
      incStep^[k] s = List.replicate s.length 255 ∧
      incStep^[k + 1] s = List.replicate s.length 0) := by
  have hM : 0 < 2 ^ (8 * s.length) := Nat.pos_pow_of_pos _ (by omega)
  have hv : beVal s < 2 ^ (8 * s.length) := beVal_lt hs
  have hflag : ∀ k, ((inc (incStep^[k] s) 0).2 = true ↔
      (beVal s + k) % 2 ^ (8 * s.length) = 2 ^ (8 * s.length) - 1) := by
    intro k
    obtain ⟨hlen, hvalid, hval⟩ := iterate_incStep_spec hs k
    rw [inc_zero]
    have h2 := (incBytes_spec hvalid).2.2.2
    rw [hlen] at h2
    rw [h2, hval]
  refine ⟨?_, ?_, ?_⟩
  · obtain ⟨hlen, hvalid, hval⟩ := iterate_incStep_spec hs (2 ^ (8 * s.length))
    apply beVal_inj hvalid hs hlen
    rw [hval, Nat.add_mod_right, Nat.mod_eq_of_lt hv]
  · refine ⟨2 ^ (8 * s.length) - 1 - beVal s, ⟨by omega, ?_⟩, ?_⟩
    · rw [hflag,
        show beVal s + (2 ^ (8 * s.length) - 1 - beVal s)
          = 2 ^ (8 * s.length) - 1 by omega,
        Nat.mod_eq_of_lt (by omega)]
    · rintro y ⟨hy, hytrue⟩
      rw [hflag] at hytrue
      have hd := Nat.div_add_mod (beVal s + y) (2 ^ (8 * s.length))
      have hqlt : (beVal s + y) / 2 ^ (8 * s.length) < 2 :=
        Nat.div_lt_of_lt_mul (by omega)
      rcases Nat.le_one_iff_eq_zero_or_eq_one.mp (Nat.lt_succ_iff.mp hqlt)
        with hq | hq
      · rw [hq, Nat.mul_zero] at hd
        omega
      · rw [hq, Nat.mul_one] at hd
        omega
  · intro k hk htrue
    rw [hflag] at htrue
    obtain ⟨hlen, hvalid, hval⟩ := iterate_incStep_spec hs k
    obtain ⟨hlen', hvalid', hval'⟩ := iterate_incStep_spec hs (k + 1)
    constructor
    · have hones : beVal (incStep^[k] s) = 2 ^ (8 * (incStep^[k] s).length) - 1 := by
        rw [hval, hlen, htrue]
      have := (beVal_eq_ones_iff hvalid).mp hones
      rwa [hlen] at this
    · apply beVal_inj hvalid' (valid_replicate _ _ (by omega))
      · rw [hlen']
        simp
      · rw [hval', beVal_replicate_zero,
          show beVal s + (k + 1) = beVal s + k + 1 by ring,
          ← Nat.mod_add_mod, htrue, Nat.sub_add_cancel hM, Nat.mod_self]

/-- Witness for `inc_cycle` at `slice = [7]`. -/
theorem inc_cycle_witness :
    incStep^[2 ^ (8 * [7].length)] [7] = [7] ∧
    (∃! k, k < 2 ^ (8 * [7].length) ∧ (inc (incStep^[k] [7]) 0).2 = true) ∧
    (∀ k, k < 2 ^ (8 * [7].length) → (inc (incStep^[k] [7]) 0).2 = true →
      incStep^[k] [7] = List.replicate [7].length 255 ∧
      incStep^[k + 1] [7] = List.replicate [7].length 0) :=
  inc_cycle (by decide) (by decide)

/-! ### Characterizing the element loops -/

theorem containsLoop_true_iff (a b : List Nat) : ∀ fuel i,
    (containsLoop a b i fuel = true ↔
      ∀ j < fuel, a.getD (i + j) 0 = b.getD (i + j) 0) := by
  intro fuel
  induction fuel with
  | zero =>
    intro i
    simp [containsLoop]
  | succ f ih =>
    intro i
    simp only [containsLoop]
    by_cases h : a.getD i 0 ≠ b.getD i 0
    · rw [if_pos h]
      constructor
      · intro hf
        exact absurd hf (by simp)
      · intro hall
        exfalso
        apply h
        have h0 := hall 0 (by omega)
        rwa [Nat.add_zero] at h0
    · rw [if_neg h]
      push_neg at h
      rw [ih (i + 1)]
      constructor
      · intro hall j hj
        cases j with
        | zero =>
          rwa [Nat.add_zero]
        | succ j' =>
          have hrec := hall j' (by omega)
          rwa [show i + 1 + j' = i + (j' + 1) by ring] at hrec
      · intro hall j hj
        have hrec := hall (j + 1) (by omega)
        rwa [show i + (j + 1) = i + 1 + j by ring] at hrec

theorem splLoop_none_iff (a b : List Nat) : ∀ fuel i,
    (splLoop a b i fuel = none ↔
      ∀ j < fuel, a.getD (i + j) 0 = b.getD (i + j) 0) := by
  intro fuel
  induction fuel with
  | zero =>
    intro i
    simp [splLoop]
  | succ f ih =>
    intro i
    simp only [splLoop]
    by_cases h : (a.getD i 0) ^^^ (b.getD i 0) ≠ 0
    · rw [if_pos h]
      constructor
      · intro hc
        exact absurd hc (by simp)
      · intro hall
        exfalso
        apply h
        have h0 := hall 0 (by omega)
        rw [Nat.add_zero] at h0
        rw [h0, Nat.xor_self]
    · rw [if_neg h]
      push_neg at h
      have heq : a.getD i 0 = b.getD i 0 := Nat.xor_eq_zero.mp h
      rw [ih (i + 1)]
      constructor
      · intro hall j hj
        cases j with
        | zero =>
          rwa [Nat.add_zero]
        | succ j' =>
          have hrec := hall j' (by omega)
          rwa [show i + 1 + j' = i + (j' + 1) by ring] at hrec
      · intro hall j hj
        have hrec := hall (j + 1) (by omega)
        rwa [show i + (j + 1) = i + 1 + j by ring] at hrec

theorem splLoop_some_spec (a b : List Nat) : ∀ fuel i r,
    splLoop a b i fuel = some r →
    ∃ j, j < fuel ∧ (∀ j' < j, a.getD (i + j') 0 = b.getD (i + j') 0) ∧
      a.getD (i + j) 0 ≠ b.getD (i + j) 0 ∧
      r = (i + j) * 8 + leading_zeros ((a.getD (i + j) 0) ^^^ (b.getD (i + j) 0)) := by
  intro fuel
  induction fuel with
  | zero =>
    intro i r h
    simp [splLoop] at h
  | succ f ih =>
    intro i r h
    simp only [splLoop] at h
    by_cases hc : (a.getD i 0) ^^^ (b.getD i 0) ≠ 0
    · rw [if_pos hc] at h
      refine ⟨0, by omega, ?_, ?_, ?_⟩
      · intro j' hj'
        omega
      · rw [Nat.add_zero]
        intro he
        apply hc
        rw [he, Nat.xor_self]
      · rw [Nat.add_zero]
        exact (Option.some_inj.mp h).symm
    · rw [if_neg hc] at h
      obtain ⟨j, hj, hpre, hne, hr⟩ := ih (i + 1) r h
      push_neg at hc
      have heq : a.getD i 0 = b.getD i 0 := Nat.xor_eq_zero.mp hc
      refine ⟨j + 1, by omega, ?_, ?_, ?_⟩
      · intro j' hj'
        cases j' with
        | zero =>
          rwa [Nat.add_zero]
        | succ j'' =>
          have hrec := hpre j'' (by omega)
          rwa [show i + 1 + j'' = i + (j'' + 1) by ring] at hrec
      · rwa [show i + (j + 1) = i + 1 + j by ring]
      · rwa [show i + (j + 1) = i + 1 + j by ring]

theorem spl_eq_some {a b : List Nat} {n r : Nat} (hn : n ≠ 0)
    (h : splLoop a b 0 ((n - 1) / 8) = some r) :
    shared_prefix_len a b n = r := by
  unfold shared_prefix_len
  rw [if_neg hn]
  simp only [h]

theorem spl_eq_none {a b : List Nat} {n : Nat} (hn : n ≠ 0)
    (h : splLoop a b 0 ((n - 1) / 8) = none) :
    shared_prefix_len a b n =
      (if (a.getD ((n - 1) / 8) 0) ^^^ (b.getD ((n - 1) / 8) 0) ≠ 0 then
        min n (((n - 1) / 8) * 8
          + leading_zeros ((a.getD ((n - 1) / 8) 0) ^^^ (b.getD ((n - 1) / 8) 0)))
      else n) := by
  unfold shared_prefix_len
  rw [if_neg hn]
  simp only [h]

theorem contains_eq (a b : List Nat) (pfx : Nat) :
    contains a pfx b =
      (containsLoop a b 0 (pfx / 8) &&
       (decide (pfx % 8 = 0) ||
        decide (0 = (255 ^^^ (mask (pfx - 1) - 1)) &&&
          ((a.getD (pfx / 8) 0) ^^^ (b.getD (pfx / 8) 0))))) := by
  unfold contains
  by_cases h1 : containsLoop a b 0 (pfx / 8) = false
  · simp [h1]
  · have h1' : containsLoop a b 0 (pfx / 8) = true := by
      cases hc : containsLoop a b 0 (pfx / 8)
      · exact absurd hc h1
      · rfl
    by_cases h2 : pfx % 8 = 0
    · simp [h1, h1', h2]
    · simp [h1, h1', h2]

theorem xor_testBit_false_iff (x y i : Nat) :
    ((x ^^^ y).testBit i = false) ↔ x.testBit i = y.testBit i := by
  rw [Nat.testBit_xor]
  cases x.testBit i <;> cases y.testBit i <;> simp

theorem xor_testBit_true_iff (x y i : Nat) :
    ((x ^^^ y).testBit i = true) ↔ x.testBit i ≠ y.testBit i := by
  rw [Nat.testBit_xor]
  cases x.testBit i <;> cases y.testBit i <;> simp

theorem lz_le_seven {d : Nat} (hd : d < 256) (hne : d ≠ 0) :
    leading_zeros d ≤ 7 := by
  rcases lz_bounds d hd with rfl | ⟨h1, h2, h3⟩
  · exact absurd rfl hne
  · exact h3

/-- A byte of a valid slice equals the corresponding byte of another valid
slice iff the eight bits it carries agree. -/
theorem byteEq_iff_getBits {a b : List Nat} (ha : Valid a) (hb : Valid b)
    (q : Nat) :
    a.getD q 0 = b.getD q 0 ↔
      ∀ t < 8, get a (8 * q + t) = get b (8 * q + t) := by
  have hx := getD_lt_256 ha q
  have hy := getD_lt_256 hb q
  rw [byte_eq_iff_bits hx hy]
  constructor
  · intro h t ht
    rw [get_eq_testBit_byte, get_eq_testBit_byte,
      show (8 * q + t) / 8 = q by omega, show (8 * q + t) % 8 = t by omega]
    exact h t ht
  · intro h t ht
    have hg := h t ht
    rwa [get_eq_testBit_byte, get_eq_testBit_byte,
      show (8 * q + t) / 8 = q by omega,
      show (8 * q + t) % 8 = t by omega] at hg

theorem mask_pred_eq {pfx : Nat} (h : pfx % 8 ≠ 0) :
    mask (pfx - 1) = 2 ^ (8 - pfx % 8) := by
  unfold mask
  congr 1
  omega

theorem highmask_testBit {r : Nat} (hr1 : 1 ≤ r) (hr2 : r ≤ 7) (i : Nat) :
    (255 ^^^ (2 ^ (8 - r) - 1)).testBit i
      = (decide (8 - r ≤ i) && decide (i < 8)) := by
  rw [highmask_eq (8 - r) (by omega), Nat.testBit_mul_pow_two,
    show 8 - (8 - r) = r by omega, Nat.testBit_two_pow_sub_one]
  by_cases h1 : 8 - r ≤ i
  · have he : (i - (8 - r) < r) ↔ (i < 8) := by omega
    simp [ge_iff_le, h1, he]
  · simp [ge_iff_le, h1]

/-- The boundary-element comparison of `contains`, bit by bit: the masked xor
is zero iff the top `r` big-endian bits of the two bytes agree. -/
theorem maskcheck_iff {x y : Nat} (_hx : x < 256) (_hy : y < 256) {r : Nat}
    (hr1 : 1 ≤ r) (hr2 : r ≤ 7) :
    (0 = (255 ^^^ (2 ^ (8 - r) - 1)) &&& (x ^^^ y)) ↔
    ∀ t < r, x.testBit (7 - t) = y.testBit (7 - t) := by
  constructor
  · intro h t ht
    rw [← xor_testBit_false_iff]
    have hb := congrArg (fun m => m.testBit (7 - t)) h
    simp only [Nat.zero_testBit, Nat.testBit_and] at hb
    rw [highmask_testBit hr1 hr2,
      decide_eq_true (show 8 - r ≤ 7 - t by omega),
      decide_eq_true (show 7 - t < 8 by omega), Bool.and_self,
      Bool.true_and] at hb
    exact hb.symm
  · intro h
    apply Eq.symm
    apply Nat.eq_of_testBit_eq
    intro i
    rw [Nat.zero_testBit, Nat.testBit_and, highmask_testBit hr1 hr2]
    by_cases h1 : 8 - r ≤ i
    · by_cases h2 : i < 8
      · have ht : 7 - i < r := by omega
        have heq := h (7 - i) ht
        rw [show 7 - (7 - i) = i by omega] at heq
        have hd := (xor_testBit_false_iff x y i).mpr heq
        rw [hd]
        simp
      · simp [h2]
    · simp [h1]

/-- Splitting a range of bit indices at the last whole element boundary. -/
theorem bitsEqBelow_split (a b : List Nat) (n : Nat) :
    (∀ i < n, get a i = get b i) ↔
    ((∀ j < n / 8, ∀ t < 8, get a (8 * j + t) = get b (8 * j + t)) ∧
     (∀ t < n % 8, get a (8 * (n / 8) + t) = get b (8 * (n / 8) + t))) := by
  constructor
  · intro h
    constructor
    · intro j hj t ht
      exact h _ (by omega)
    · intro t ht
      exact h _ (by omega)
  · rintro ⟨h1, h2⟩ i hi
    by_cases hc : i / 8 < n / 8
    · have hg := h1 (i / 8) hc (i % 8) (by omega)
      rwa [show 8 * (i / 8) + i % 8 = i by omega] at hg
    · have hq : i / 8 = n / 8 := by omega
      have ht : i % 8 < n % 8 := by omega
      have hg := h2 (i % 8) ht
      rwa [← hq, show 8 * (i / 8) + i % 8 = i by omega] at hg

/-- Rust `contains(slice, prefix, other)` holds iff the two slices agree on every
bit at an index below `prefix`. -/
theorem contains_true_iff {a b : List Nat} (ha : Valid a) (hb : Valid b)
    (pfx : Nat) :
    (contains a pfx b = true ↔ ∀ i < pfx, get a i = get b i) := by
  rw [contains_eq, bitsEqBelow_split a b pfx, Bool.and_eq_true,
    containsLoop_true_iff]
  constructor
  · rintro ⟨hl, hrest⟩
    constructor
    · intro j hj t ht
      exact (byteEq_iff_getBits ha hb j).mp (by simpa using hl j hj) t ht
    · intro t ht
      have hr0 : pfx % 8 ≠ 0 := by omega
      rw [Bool.or_eq_true] at hrest
      rcases hrest with hz | hm
      · rw [decide_eq_true_eq] at hz
        omega
      · rw [decide_eq_true_eq, mask_pred_eq hr0] at hm
        have hx := getD_lt_256 ha (pfx / 8)
        have hy := getD_lt_256 hb (pfx / 8)
        have hbit := (maskcheck_iff hx hy (show 1 ≤ pfx % 8 by omega)
          (show pfx % 8 ≤ 7 by omega)).mp hm t ht
        rw [get_eq_testBit_byte, get_eq_testBit_byte,
          show (8 * (pfx / 8) + t) / 8 = pfx / 8 by omega,
          show (8 * (pfx / 8) + t) % 8 = t by omega]
        exact hbit
  · rintro ⟨h1, h2⟩
    constructor
    · intro j hj
      rw [Nat.zero_add]
      exact (byteEq_iff_getBits ha hb j).mpr (h1 j hj)
    · rw [Bool.or_eq_true]
      by_cases hr0 : pfx % 8 = 0
      · left
        exact decide_eq_true hr0
      · right
        apply decide_eq_true
        rw [mask_pred_eq hr0]
        apply (maskcheck_iff (getD_lt_256 ha _) (getD_lt_256 hb _)
          (show 1 ≤ pfx % 8 by omega) (show pfx % 8 ≤ 7 by omega)).mpr
        intro t ht
        have hg := h2 t ht
        rwa [get_eq_testBit_byte, get_eq_testBit_byte,
          show (8 * (pfx / 8) + t) / 8 = pfx / 8 by omega,
          show (8 * (pfx / 8) + t) % 8 = t by omega] at hg

theorem spl_zero (a b : List Nat) : shared_prefix_len a b 0 = 0 := rfl

theorem spl_le (a b : List Nat) (n : Nat) : shared_prefix_len a b n ≤ n := by
  by_cases hn0 : n = 0
  · subst hn0
    rw [spl_zero]
  rcases hsl : splLoop a b 0 ((n - 1) / 8) with _ | r
  · rw [spl_eq_none hn0 hsl]
    split
    · exact min_le_left _ _
    · exact le_refl n
  · rw [spl_eq_some hn0 hsl]
    obtain ⟨j, hj, _hpre, _hne, hr⟩ := splLoop_some_spec a b _ 0 r hsl
    have hlz := lz_le_eight ((a.getD (0 + j) 0) ^^^ (b.getD (0 + j) 0))
    have h8 : 8 * ((n - 1) / 8) ≤ n - 1 := by omega
    omega

theorem spl_self (a : List Nat) (n : Nat) : shared_prefix_len a a n = n := by
  by_cases hn0 : n = 0
  · subst hn0
    rw [spl_zero]
  have hnone : splLoop a a 0 ((n - 1) / 8) = none := by
    rw [splLoop_none_iff]
    intro j _
    rfl
  rw [spl_eq_none hn0 hnone, Nat.xor_self]
  simp

/-- Rust `shared_prefix_len(slice, other, n)` returns exactly `n` iff the two
slices agree on every bit at an index below `n`. -/
theorem spl_eq_iff {a b : List Nat} (ha : Valid a) (hb : Valid b) (n : Nat) :
    (shared_prefix_len a b n = n ↔ ∀ i < n, get a i = get b i) := by
  by_cases hn0 : n = 0
  · subst hn0
    rw [spl_zero]
    simp
  rcases hsl : splLoop a b 0 ((n - 1) / 8) with _ | r
  · have hbytes := (splLoop_none_iff a b ((n - 1) / 8) 0).mp hsl
    simp only [Nat.zero_add] at hbytes
    rw [spl_eq_none hn0 hsl]
    by_cases hd : (a.getD ((n - 1) / 8) 0) ^^^ (b.getD ((n - 1) / 8) 0) ≠ 0
    · rw [if_pos hd]
      have hx8 : a.getD ((n - 1) / 8) 0 < 2 ^ 8 := getD_lt_256 ha _
      have hy8 : b.getD ((n - 1) / 8) 0 < 2 ^ 8 := getD_lt_256 hb _
      have hd256 : (a.getD ((n - 1) / 8) 0) ^^^ (b.getD ((n - 1) / 8) 0) < 256 :=
        Nat.xor_lt_two_pow hx8 hy8
      have hlz7 := lz_le_seven hd256 (by simpa using hd)
      rw [min_eq_left_iff]
      have h8 : 8 * ((n - 1) / 8) ≤ n - 1 := by omega
      constructor
      · intro hle i hi
        by_cases hq : i / 8 < (n - 1) / 8
        · have hby := hbytes (i / 8) hq
          have hg := (byteEq_iff_getBits ha hb (i / 8)).mp hby (i % 8) (by omega)
          rwa [show 8 * (i / 8) + i % 8 = i by omega] at hg
        · have hqe : i / 8 = (n - 1) / 8 := by omega
          have htlt : i % 8 < leading_zeros
              ((a.getD ((n - 1) / 8) 0) ^^^ (b.getD ((n - 1) / 8) 0)) := by
            omega
          rw [get_eq_testBit_byte, get_eq_testBit_byte, hqe,
            ← xor_testBit_false_iff]
          exact lz_testBit_false hd256 (by omega) htlt
      · intro hbits
        by_contra hlt
        push_neg at hlt
        have histar : ((n - 1) / 8) * 8 + leading_zeros
            ((a.getD ((n - 1) / 8) 0) ^^^ (b.getD ((n - 1) / 8) 0)) < n := by
          omega
        have hg := hbits _ histar
        rw [get_eq_testBit_byte, get_eq_testBit_byte,
          show (((n - 1) / 8) * 8 + leading_zeros
            ((a.getD ((n - 1) / 8) 0) ^^^ (b.getD ((n - 1) / 8) 0))) / 8
            = (n - 1) / 8 by omega,
          show (((n - 1) / 8) * 8 + leading_zeros
            ((a.getD ((n - 1) / 8) 0) ^^^ (b.getD ((n - 1) / 8) 0))) % 8
            = leading_zeros
              ((a.getD ((n - 1) / 8) 0) ^^^ (b.getD ((n - 1) / 8) 0)) by omega]
          at hg
        have hbit := lz_testBit_true hd256 (by simpa using hd)
        rw [xor_testBit_true_iff] at hbit
        exact hbit hg
    · rw [if_neg hd]
      push_neg at hd
      have heq : a.getD ((n - 1) / 8) 0 = b.getD ((n - 1) / 8) 0 :=
        Nat.xor_eq_zero.mp hd
      constructor
      · intro _ i hi
        have hq : i / 8 ≤ (n - 1) / 8 := by omega
        rcases Nat.lt_or_eq_of_le hq with hqlt | hqe
        · have hg := (byteEq_iff_getBits ha hb (i / 8)).mp
            (hbytes (i / 8) hqlt) (i % 8) (by omega)
          rwa [show 8 * (i / 8) + i % 8 = i by omega] at hg
        · have hg := (byteEq_iff_getBits ha hb (i / 8)).mp
            (hqe ▸ heq) (i % 8) (by omega)
          rwa [show 8 * (i / 8) + i % 8 = i by omega] at hg
      · intro _
        rfl
  · rw [spl_eq_some hn0 hsl]
    obtain ⟨j, hj, hpre, hne, hr⟩ := splLoop_some_spec a b _ 0 r hsl
    simp only [Nat.zero_add] at hpre hne hr
    have hx8 : a.getD j 0 < 2 ^ 8 := getD_lt_256 ha _
    have hy8 : b.getD j 0 < 2 ^ 8 := getD_lt_256 hb _
    have hd256 : (a.getD j 0) ^^^ (b.getD j 0) < 256 :=
      Nat.xor_lt_two_pow hx8 hy8
    have hdne : (a.getD j 0) ^^^ (b.getD j 0) ≠ 0 := by
      intro h0
      exact hne (Nat.xor_eq_zero.mp h0)
    have hlz7 := lz_le_seven hd256 hdne
    have h8 : 8 * ((n - 1) / 8) ≤ n - 1 := by omega
    have hrlt : r < n := by omega
    constructor
    · intro he
      exact absurd he (by omega)
    · intro hbits
      exfalso
      have histar : 8 * j + leading_zeros ((a.getD j 0) ^^^ (b.getD j 0)) < n := by
        omega
      have hg := hbits _ histar
      rw [get_eq_testBit_byte, get_eq_testBit_byte,
        show (8 * j + leading_zeros ((a.getD j 0) ^^^ (b.getD j 0))) / 8 = j
          by omega,
        show (8 * j + leading_zeros ((a.getD j 0) ^^^ (b.getD j 0))) % 8
          = leading_zeros ((a.getD j 0) ^^^ (b.getD j 0)) by omega] at hg
      have hbit := lz_testBit_true hd256 hdne
      rw [xor_testBit_true_iff] at hbit
      exact hbit hg

theorem fillFrom_ge_length (s : List Nat) (v : Nat) :
    ∀ i, s.length ≤ i → fillFrom s i v = s := by
  induction s with
  | nil =>
    intro i _
    rfl
  | cons x xs ih =>
    intro i hi
    cases i with
    | zero => simp at hi
    | succ j =>
      show x :: fillFrom xs j v = x :: xs
      rw [ih j (by simpa using hi)]

theorem zeroesfrom_full (a : List Nat) : zeroesfrom a (8 * a.length) = a := by
  simp only [zeroesfrom]
  rw [if_pos (Nat.mul_mod_right 8 a.length)]
  exact fillFrom_ge_length a 0 _ (by omega)

theorem onesfrom_full (a : List Nat) : onesfrom a (8 * a.length) = a := by
  simp only [onesfrom]
  rw [if_pos (Nat.mul_mod_right 8 a.length)]
  exact fillFrom_ge_length a 255 _ (by omega)

/-- C3: `contains(a, n, a)` holds for every `n ≤ 8 * len`, and `contains` is
monotone in the prefix length: `contains(a, n, b)` implies
`contains(a, n2, b)` for every `n2 ≤ n`. -/
theorem contains_refl_and_mono {a b : List Nat} (ha : Valid a) (hb : Valid b)
    (_hlen : b.length = a.length) {n : Nat} (_hn : n ≤ 8 * a.length) :
    contains a n a = true ∧
    (contains a n b = true → ∀ n2 ≤ n, contains a n2 b = true) := by
  constructor
  · rw [contains_true_iff ha ha]
    intro i _
    rfl
  · intro h n2 hn2
    rw [contains_true_iff ha hb] at h ⊢
    intro i hi
    exact h i (by omega)

/-- Witness for `contains_refl_and_mono` at `a = [192, 168]`,
`b = [192, 200]`, `n = 16`. -/
theorem contains_refl_and_mono_witness :
    contains [192, 168] 16 [192, 168] = true ∧
    (contains [192, 168] 16 [192, 200] = true →
      ∀ n2 ≤ 16, contains [192, 168] n2 [192, 200] = true) :=
  contains_refl_and_mono (by decide) (by decide) (by decide) (by decide)

/-- C4: `shared_prefix_len(a, a, n) = n` for every `n ≤ 8 * len`,
`shared_prefix_len(a, b, n) ≤ n` for every `n ≤ 8 * len`, and
`shared_prefix_len(a, b, 0) = 0`. -/
theorem shared_prefix_len_props {a b : List Nat} (_hlen : b.length = a.length) :
    (∀ n ≤ 8 * a.length, shared_prefix_len a a n = n) ∧
    (∀ n ≤ 8 * a.length, shared_prefix_len a b n ≤ n) ∧
    shared_prefix_len a b 0 = 0 :=
  ⟨fun n _ => spl_self a n, fun n _ => spl_le a b n, spl_zero a b⟩

/-- Witness for `shared_prefix_len_props` at `a = [40, 192]`,
`b = [40, 193]`. -/
theorem shared_prefix_len_props_witness :
    (∀ n ≤ 8 * [40, 192].length, shared_prefix_len [40, 192] [40, 192] n = n) ∧
    (∀ n ≤ 8 * [40, 192].length, shared_prefix_len [40, 192] [40, 193] n ≤ n) ∧
    shared_prefix_len [40, 192] [40, 193] 0 = 0 :=
  shared_prefix_len_props (by decide)

/-- C6: the fill operations are no-ops at index `8 * len`, and `contains`
with prefix 0 is `true` for every equal-length slice. -/
theorem boundary_noop (a : List Nat) :
    zeroesfrom a (8 * a.length) = a ∧ onesfrom a (8 * a.length) = a ∧
    ∀ b : List Nat, b.length = a.length → contains a 0 b = true := by
  refine ⟨zeroesfrom_full a, onesfrom_full a, ?_⟩
  intro b _
  rfl

/-- Witness for `boundary_noop` at `a = [1, 2]`, `b = [3, 4]`. -/
theorem boundary_noop_witness :
    zeroesfrom [1, 2] (8 * [1, 2].length) = [1, 2] ∧
    onesfrom [1, 2] (8 * [1, 2].length) = [1, 2] ∧
    contains [1, 2] 0 [3, 4] = true :=
  ⟨(boundary_noop [1, 2]).1, (boundary_noop [1, 2]).2.1,
    (boundary_noop [1, 2]).2.2 [3, 4] (by decide)⟩

/-- C8: the literal scenario: `shared_prefix_len([0b1100_0000], [0b1100_0001], 7)`
is 7, and with `max_len = 8` the answer from the differing xor element is
clipped to 7 as well. -/
theorem shared_prefix_len_literal :
    shared_prefix_len [192] [193] 7 = 7 ∧ shared_prefix_len [192] [193] 8 = 7 := by
  decide

/-- C10: for valid equal-length slices and `prefix ≤ 8 * len`,
`contains(a, prefix, b)` holds iff `shared_prefix_len(a, b, prefix) = prefix`. -/
theorem contains_iff_spl {a b : List Nat} (ha : Valid a) (hb : Valid b)
    (_hlen : b.length = a.length) {pfx : Nat} (_hp : pfx ≤ 8 * a.length) :
    (contains a pfx b = true ↔ shared_prefix_len a b pfx = pfx) := by
  rw [contains_true_iff ha hb, spl_eq_iff ha hb]

/-- Witness for `contains_iff_spl` at `a = [192]`, `b = [193]`, `prefix = 7`. -/
theorem contains_iff_spl_witness :
    (contains [192] 7 [193] = true ↔ shared_prefix_len [192] [193] 7 = 7) :=
  contains_iff_spl (by decide) (by decide) (by decide) (by decide)

/-! ### The fill family -/

theorem fillFrom_length (s : List Nat) (v : Nat) :
    ∀ i, (fillFrom s i v).length = s.length := by
  induction s with
  | nil =>
    intro i
    rfl
  | cons x xs ih =>
    intro i
    cases i with
    | zero =>
      show (v :: fillFrom xs 0 v).length = (x :: xs).length
      simp [ih 0]
    | succ j =>
      show (x :: fillFrom xs j v).length = (x :: xs).length
      simp [ih j]

theorem fillFrom_getD_lt (s : List Nat) (v : Nat) :
    ∀ i p, p < i → (fillFrom s i v).getD p 0 = s.getD p 0 := by
  induction s with
  | nil =>
    intro i p _
    rfl
  | cons x xs ih =>
    intro i p hp
    cases i with
    | zero => omega
    | succ j =>
      show (x :: fillFrom xs j v).getD p 0 = (x :: xs).getD p 0
      cases p with
      | zero => rfl
      | succ p' =>
        show (fillFrom xs j v).getD p' 0 = xs.getD p' 0
        exact ih j p' (by omega)

theorem fillFrom_getD_ge (s : List Nat) (v : Nat) :
    ∀ i p, i ≤ p → p < s.length → (fillFrom s i v).getD p 0 = v := by
  induction s with
  | nil =>
    intro i p _ h
    simp at h
  | cons x xs ih =>
    intro i p hip hp
    cases i with
    | zero =>
      cases p with
      | zero => rfl
      | succ p' =>
        show (fillFrom xs 0 v).getD p' 0 = v
        exact ih 0 p' (by omega) (by simpa using hp)
    | succ j =>
      cases p with
      | zero => omega
      | succ p' =>
        show (fillFrom xs j v).getD p' 0 = v
        exact ih j p' (by omega) (by simpa using hp)

theorem allEqFrom_iff (s : List Nat) (v : Nat) : ∀ i,
    (allEqFrom s i v = true ↔ ∀ p, i ≤ p → p < s.length → s.getD p 0 = v) := by
  induction s with
  | nil =>
    intro i
    constructor
    · intro _ p _ hp
      simp at hp
    · intro _
      rfl
  | cons x xs ih =>
    intro i
    cases i with
    | zero =>
      show (decide (x = v) && allEqFrom xs 0 v) = true ↔ _
      rw [Bool.and_eq_true, decide_eq_true_eq, ih 0]
      constructor
      · rintro ⟨hx, hxs⟩ p _ hp
        cases p with
        | zero => exact hx
        | succ p' => exact hxs p' (by omega) (by simpa using hp)
      · intro h
        refine ⟨h 0 (by omega) (by simp), ?_⟩
        intro p _ hp
        exact h (p + 1) (by omega) (by simpa using hp)
    | succ j =>
      show allEqFrom xs j v = true ↔ _
      rw [ih j]
      constructor
      · intro h p hip hp
        cases p with
        | zero => omega
        | succ p' => exact h p' (by omega) (by simpa using hp)
      · intro h p hjp hp
        exact h (p + 1) (by omega) (by simpa using hp)

theorem allEqFrom_fillFrom (s : List Nat) (v i : Nat) :
    allEqFrom (fillFrom s i v) i v = true := by
  rw [allEqFrom_iff]
  intro p hip hp
  rw [fillFrom_length] at hp
  exact fillFrom_getD_ge s v i p hip hp

theorem list_ext_getD {s t : List Nat} (hlen : s.length = t.length)
    (h : ∀ p < s.length, s.getD p 0 = t.getD p 0) : s = t := by
  apply List.ext_getElem hlen
  intro p h1 h2
  have hg := h p h1
  rwa [List.getD_eq_getElem _ _ h1, List.getD_eq_getElem _ _ h2] at hg

theorem fillFrom_eq_self_iff (s : List Nat) (v i : Nat) :
    fillFrom s i v = s ↔ allEqFrom s i v = true := by
  constructor
  · intro h
    have hfill := allEqFrom_fillFrom s v i
    rwa [h] at hfill
  · intro h
    apply list_ext_getD (fillFrom_length s v i)
    intro p hp
    rw [fillFrom_length] at hp
    by_cases hpi : p < i
    · exact fillFrom_getD_lt s v i p hpi
    · rw [fillFrom_getD_ge s v i p (by omega) hp]
      exact ((allEqFrom_iff s v i).mp h p (by omega) hp).symm

theorem zeroesfrom_eq_of_aligned {a : List Nat} {n : Nat} (h8 : n % 8 = 0) :
    zeroesfrom a n = fillFrom a (n / 8) 0 := by
  simp only [zeroesfrom]
  rw [if_pos h8]

theorem zeroesfrom_eq_of_mid {a : List Nat} {n : Nat} (h8 : n % 8 ≠ 0)
    (hq : n / 8 < a.length) :
    zeroesfrom a n = fillFrom
      (a.set (n / 8) ((a.getD (n / 8) 0) &&& (255 ^^^ (mask (n - 1) - 1))))
      (n / 8 + 1) 0 := by
  simp only [zeroesfrom]
  rw [if_neg h8, if_pos hq]

theorem zeroesfrom_eq_of_out {a : List Nat} {n : Nat} (h8 : n % 8 ≠ 0)
    (hq : ¬ n / 8 < a.length) : zeroesfrom a n = a := by
  simp only [zeroesfrom]
  rw [if_neg h8, if_neg hq]

theorem is_zeroesfrom_eq_of_aligned {a : List Nat} {n : Nat} (h8 : n % 8 = 0) :
    is_zeroesfrom a n = allEqFrom a (n / 8) 0 := by
  simp only [is_zeroesfrom]
  rw [if_pos h8]

theorem is_zeroesfrom_eq_of_mid {a : List Nat} {n : Nat} (h8 : n % 8 ≠ 0)
    (hq : n / 8 < a.length) :
    is_zeroesfrom a n = (decide ((a.getD (n / 8) 0) &&& (mask (n - 1) - 1) = 0)
      && allEqFrom a (n / 8 + 1) 0) := by
  simp only [is_zeroesfrom]
  rw [if_neg h8, if_pos hq]

theorem is_zeroesfrom_eq_of_out {a : List Nat} {n : Nat} (h8 : n % 8 ≠ 0)
    (hq : ¬ n / 8 < a.length) : is_zeroesfrom a n = true := by
  simp only [is_zeroesfrom]
  rw [if_neg h8, if_neg hq]

theorem zeroesfrom_then_is (a : List Nat) (n : Nat) :
    is_zeroesfrom (zeroesfrom a n) n = true := by
  by_cases h8 : n % 8 = 0
  · rw [zeroesfrom_eq_of_aligned h8, is_zeroesfrom_eq_of_aligned h8]
    exact allEqFrom_fillFrom a 0 (n / 8)
  · by_cases hq : n / 8 < a.length
    · rw [zeroesfrom_eq_of_mid h8 hq]
      have hlent : (fillFrom
          (a.set (n / 8) ((a.getD (n / 8) 0) &&& (255 ^^^ (mask (n - 1) - 1))))
          (n / 8 + 1) 0).length = a.length := by
        rw [fillFrom_length, List.length_set]
      rw [is_zeroesfrom_eq_of_mid h8 (by rw [hlent]; exact hq), Bool.and_eq_true]
      constructor
      · apply decide_eq_true
        rw [fillFrom_getD_lt _ _ _ _ (by omega), getD_set_self _ _ _ hq,
          mask_pred_eq h8, Nat.and_assoc, maskc_and_mask (8 - n % 8) (by omega),
          Nat.and_zero]
      · exact allEqFrom_fillFrom _ 0 (n / 8 + 1)
    · rw [zeroesfrom_eq_of_out h8 hq, is_zeroesfrom_eq_of_out h8 hq]

theorem is_zeroesfrom_iff_noop {a : List Nat} (ha : Valid a) (n : Nat) :
    (is_zeroesfrom a n = true ↔ zeroesfrom a n = a) := by
  by_cases h8 : n % 8 = 0
  · rw [zeroesfrom_eq_of_aligned h8, is_zeroesfrom_eq_of_aligned h8,
      fillFrom_eq_self_iff]
  · by_cases hq : n / 8 < a.length
    · rw [zeroesfrom_eq_of_mid h8 hq, is_zeroesfrom_eq_of_mid h8 hq,
        Bool.and_eq_true, decide_eq_true_eq]
      have hx := getD_lt_256 ha (n / 8)
      have hw : (a.getD (n / 8) 0) &&& (255 ^^^ (mask (n - 1) - 1))
          = a.getD (n / 8) 0
          ↔ (a.getD (n / 8) 0) &&& (mask (n - 1) - 1) = 0 := by
        rw [mask_pred_eq h8]
        exact and_mask_keep_iff _ hx _ (by omega)
      constructor
      · rintro ⟨hm, hrest⟩
        apply list_ext_getD
        · rw [fillFrom_length, List.length_set]
        · intro p hp
          rw [fillFrom_length, List.length_set] at hp
          rcases Nat.lt_trichotomy p (n / 8) with hplt | hpe | hpgt
          · rw [fillFrom_getD_lt _ _ _ _ (by omega), getD_set_ne _ _ (by omega)]
          · subst hpe
            rw [fillFrom_getD_lt _ _ _ _ (by omega), getD_set_self _ _ _ hq]
            exact hw.mpr hm
          · rw [fillFrom_getD_ge _ _ _ _ (by omega)
              (by rw [List.length_set]; exact hp)]
            exact ((allEqFrom_iff a 0 (n / 8 + 1)).mp hrest p (by omega) hp).symm
      · intro heq
        constructor
        · apply hw.mp
          have hg := congrArg (fun t => t.getD (n / 8) 0) heq
          simp only at hg
          rwa [fillFrom_getD_lt _ _ _ _ (by omega), getD_set_self _ _ _ hq] at hg
        · rw [allEqFrom_iff]
          intro p hip hp
          have hg := congrArg (fun t => t.getD p 0) heq
          simp only at hg
          rw [fillFrom_getD_ge _ _ _ _ (by omega)
            (by rw [List.length_set]; exact hp)] at hg
          exact hg.symm
    · rw [zeroesfrom_eq_of_out h8 hq, is_zeroesfrom_eq_of_out h8 hq]
      simp

theorem is_zeroesfrom_zero_iff (a : List Nat) :
    (is_zeroesfrom a 0 = true ↔ ∀ b ∈ a, b = 0) := by
  rw [is_zeroesfrom_eq_of_aligned (show (0 : Nat) % 8 = 0 from rfl),
    show (0 : Nat) / 8 = 0 from rfl, allEqFrom_iff]
  constructor
  · intro h b hb
    obtain ⟨p, hp, hpe⟩ := List.mem_iff_getElem.mp hb
    rw [← hpe]
    have hg := h p (by omega) hp
    rwa [List.getD_eq_getElem _ _ hp] at hg
  · intro h p _ hp
    rw [List.getD_eq_getElem _ _ hp]
    exact h _ (List.getElem_mem hp)

/-- C5: `zeroesfrom` followed by `is_zeroesfrom` is always true;
`is_zeroesfrom(a, 0)` is true iff every element is zero; and in general
`is_zeroesfrom(a, n)` is true exactly when `zeroesfrom(a, n)` would leave the
slice unchanged. -/
theorem zeroesfrom_props {a : List Nat} (ha : Valid a) {n : Nat}
    (_hn : n ≤ 8 * a.length) :
    is_zeroesfrom (zeroesfrom a n) n = true ∧
    (is_zeroesfrom a 0 = true ↔ ∀ b ∈ a, b = 0) ∧
    (is_zeroesfrom a n = true ↔ zeroesfrom a n = a) :=
  ⟨zeroesfrom_then_is a n, is_zeroesfrom_zero_iff a, is_zeroesfrom_iff_noop ha n⟩

/-- Witness for `zeroesfrom_props` at `a = [224, 0]`, `n = 3`. -/
theorem zeroesfrom_props_witness :
    is_zeroesfrom (zeroesfrom [224, 0] 3) 3 = true ∧
    (is_zeroesfrom [224, 0] 0 = true ↔ ∀ b ∈ [224, 0], b = 0) ∧
    (is_zeroesfrom [224, 0] 3 = true ↔ zeroesfrom [224, 0] 3 = [224, 0]) :=
  zeroesfrom_props (by decide) (by decide)

end BigEndian

namespace Cidr

/-- Modelled from the spec: the IPv4 CIDR value type (its defining module is
not among the provided sources; §4.6 specifies an address plus a prefix
length, the address being a 4-byte array). -/
structure Ipv4Cidr where
  address : List Nat
  network_length : Nat

/-- Modelled from the spec: the IPv6 CIDR value type, with a 16-byte
address. -/
structure Ipv6Cidr where
  address : List Nat
  network_length : Nat

/-- Modelled from the spec: the IPv4 `contains` is prefix containment (§4.5)
of the address bytes. -/
def Ipv4Cidr.contains (c : Ipv4Cidr) (a : List Nat) : Bool :=
  BigEndian.contains c.address c.network_length a

/-- Modelled from the spec: the IPv6 `contains`, like the IPv4 one. -/
def Ipv6Cidr.contains (c : Ipv6Cidr) (a : List Nat) : Bool :=
  BigEndian.contains c.address c.network_length a

/-- Dispatching address type (std IpAddr): a tagged union of the two address
families, each carrying its byte array. -/
inductive IpAddr where
  | V4 (a : List Nat)
  | V6 (a : List Nat)

/-- Dispatching CIDR type (IpCidr): a tagged union over the two per-family
CIDR types. -/
inductive IpCidr where
  | V4 (c : Ipv4Cidr)
  | V6 (c : Ipv6Cidr)

/-- From src/cidr/combined.rs: match on the family of the network, then on
the family of the address; mixed families yield false without consulting the
per-family containment test. -/
def IpCidr.contains : IpCidr → IpAddr → Bool
  | IpCidr.V4 c, IpAddr.V4 a => c.contains a
  | IpCidr.V4 _, IpAddr.V6 _ => false
  | IpCidr.V6 _, IpAddr.V4 _ => false
  | IpCidr.V6 c, IpAddr.V6 a => c.contains a

/-- C9: the dispatching contains on a mixed-family pair always returns
false; being a total Bool-valued function it never errors and never returns
true on such a pair. -/
theorem IpCidr.contains_mixed_family_false :
    ∀ (c4 : Ipv4Cidr) (c6 : Ipv6Cidr) (a4 a6 : List Nat),
      IpCidr.contains (IpCidr.V4 c4) (IpAddr.V6 a6) = false ∧
      IpCidr.contains (IpCidr.V6 c6) (IpAddr.V4 a4) = false :=
  fun _ _ _ _ => ⟨rfl, rfl⟩

end Cidr
